import Mathlib

/-!
Verification development for the ECGV signal-processing core.

The Python source (src/analysis/ecg_toolbox.py, src/modules/data_handler.py)
is shallowly embedded here:

* pandas/numpy float values that may be NaN are modelled as `Option ℚ`
  (`none` = NaN), with IEEE propagation: any arithmetic on NaN is NaN.
* numpy values that may additionally be infinite (the frequency axis of the
  Fourier filter, and the band edges, which callers set to `np.inf`) are
  modelled by the four-case type `FloatVal` (nan / +inf / -inf / finite ℚ).
* raising Python exceptions is modelled by `Except`.
* the discrete Fourier transform is embedded over an arbitrary field with the
  primitive root of unity as an explicit parameter: the root used by the code,
  `exp(-2*pi*I/N)`, is transcendental, so theorems quantify over the root and
  the claims are instantiated at rational roots where they are exact (for
  N = 1 and N = 2 the true root is 1 resp. -1).
* the Gaussian / exponential smoothing windows of scipy are normalized lists
  of strictly positive reals whose entries are transcendental
  (`exp(-|k-c|/tau)` etc.); they are embedded as an explicit list parameter
  `w : List ℚ`, so every theorem quantifying over `w` covers the window the
  code builds (its length is the forced-odd window size).
-/

/-! ## NaN-propagating rational arithmetic (`Option ℚ`, `none` = NaN) -/

/-- NaN-propagating addition: `x + NaN = NaN` (IEEE). -/
def oadd : Option ℚ → Option ℚ → Option ℚ
  | some a, some b => some (a + b)
  | _, _ => none

/-- NaN-propagating subtraction. -/
def osub : Option ℚ → Option ℚ → Option ℚ
  | some a, some b => some (a - b)
  | _, _ => none

/-- Multiplication by a (finite) scalar; `c * NaN = NaN` even for `c = 0`,
as in IEEE arithmetic. -/
def omulc (c : ℚ) : Option ℚ → Option ℚ
  | some a => some (c * a)
  | none => none

/-- `Series.fillna(0)`: replace every NaN by 0. -/
def fillna0 (xs : List (Option ℚ)) : List (Option ℚ) :=
  xs.map (fun o => some (o.getD 0))

/-- First defined (non-NaN) value of a list, if any. -/
def firstSome : List (Option ℚ) → Option ℚ
  | [] => none
  | some v :: _ => some v
  | none :: rest => firstSome rest

/-- `Series.bfill()`: every NaN entry is replaced by the next defined value
after it (trailing NaNs stay NaN). -/
def bfill : List (Option ℚ) → List (Option ℚ)
  | [] => []
  | x :: rest => (match x with | some v => some v | none => firstSome rest) :: bfill rest

/-! ## Python positional slicing

pandas `Series` objects with the default `RangeIndex` are sliced with `[]`
exactly like Python lists: negative endpoints count from the end, endpoints
are clamped to `[0, n]`, the stop is exclusive. -/

/-- The effective position of a Python slice endpoint `i` on a list of
length `n`: `max (n + i) 0` for negative `i`, `min i n` otherwise. -/
def pyBound (n : ℕ) (i : ℤ) : ℕ :=
  if i < 0 then (n + i).toNat else min i.toNat n

/-- Python slice `l[a:b]` (positional, stop exclusive, endpoints clamped). -/
def pySlice {α : Type} (l : List α) (a b : ℤ) : List α :=
  (l.drop (pyBound l.length a)).take (pyBound l.length b - pyBound l.length a)

/-! ## SmoothingKernels: `symmetric_gaussian_moving_average` and
`symmetric_exponential_moving_average`
(src/analysis/ecg_toolbox.py lines 244-272).

Both build a scipy window of length `L` (forced odd: `L += 1` when even),
normalize it to unit sum and call `numpy.convolve(y, window, 'same')`.
The window values (`exp(-((k-c)/std)^2/2)` resp. `exp(-|k-c|/tau)`,
normalized) are transcendental, so the embedding takes the normalized
window as an explicit parameter `w : List ℚ`; theorems quantifying over `w`
cover the windows the code builds.  numpy semantics embedded here:
`convolve` raises on an empty operand, the full convolution has length
`n + m - 1`, and mode `'same'` returns the centred `max(n, m)` cells —
NOT `n` cells when the signal is shorter than the window. -/

/-- Cell `c` of the full numpy convolution `convolve(y, w)`:
`sum over k of y[k] * w[c - k]` for the in-range `k`, NaN-propagating. -/
def convCellO (y : List (Option ℚ)) (w : List ℚ) (c : ℕ) : Option ℚ :=
  (List.range y.length).foldl
    (fun acc k =>
      if k ≤ c ∧ c - k < w.length then oadd acc (omulc (w.getD (c - k) 0) (y.getD k none))
      else acc)
    (some 0)

/-- `numpy.convolve(y, w, 'full')`: length `n + m - 1`. -/
def convFullO (y : List (Option ℚ)) (w : List ℚ) : List (Option ℚ) :=
  (List.range (y.length + w.length - 1)).map (convCellO y w)

/-- `numpy.convolve(y, w, 'same')`: the centred `max(n, m)` cells of the
full convolution (start offset `(min(n, m) - 1) // 2`). -/
def convSameO (y : List (Option ℚ)) (w : List ℚ) : List (Option ℚ) :=
  ((convFullO y w).drop ((min y.length w.length - 1) / 2)).take (max y.length w.length)

/-- The `if L % 2 == 0: L += 1` window-length adjustment of both smoothers. -/
def forceOdd (L : ℕ) : ℕ := if L % 2 = 0 then L + 1 else L

/-- Shared body of both smoothers: `convolve(y, w, 'same')`, with numpy's
errors on empty operands. -/
def smoothSame (w : List ℚ) (y : List (Option ℚ)) : Except String (List (Option ℚ)) :=
  if y.isEmpty then .error "a cannot be empty"
  else if w.isEmpty then .error "v cannot be empty"
  else .ok (convSameO y w)

/-- `symmetric_gaussian_moving_average`, with the unit-sum Gaussian window
of forced-odd length passed as `w`. -/
def symmetric_gaussian_moving_average (w : List ℚ) (y : List (Option ℚ)) :
    Except String (List (Option ℚ)) :=
  smoothSame w y

/-- `symmetric_exponential_moving_average`, with the unit-sum exponential
window of forced-odd length passed as `w`. -/
def symmetric_exponential_moving_average (w : List ℚ) (y : List (Option ℚ)) :
    Except String (List (Option ℚ)) :=
  smoothSame w y

/-! ## PulseMetrics: `get_pulse_metrics`
(src/analysis/ecg_toolbox.py lines 275-297).

The timestamp Series (seconds, default integer index) is a `List ℚ`.
`Series.diff` maps to `pdiff`.  The variability loop writes, at every
position `i`, `sqrt(mean(diffs[i-3:i+1] ** 2))`, reading from the frozen
millisecond copy `diffs` of the interval differences; the elementwise final
`sqrt` is irrational, so the embedding keeps the radicand: `msqAt` is the
mean of the squared slice, `variability[i] = sqrt (msqAt diffs i)` — an
entry of the pandas column is NaN exactly when `msqAt` is `none`, and the
claims under test concern only the NaN pattern and the interval column, on
which `sqrt` has no bearing. -/

/-- `Series.diff()`: first entry NaN, entry `j` is `xs[j] - xs[j-1]`
(NaN-propagating). -/
def pdiff (xs : List (Option ℚ)) : List (Option ℚ) :=
  (List.range xs.length).map fun j =>
    if j = 0 then none else osub (xs.getD j none) (xs.getD (j - 1) none)

/-- The radicand of the variability entry at position `i`:
`mean(diffs[i-3:i+1] ** 2)` with numpy semantics — the mean of an empty
slice is NaN, a NaN term makes the mean NaN. -/
def msqAt (diffs : List (Option ℚ)) (i : ℕ) : Option ℚ :=
  let s := pySlice diffs ((i : ℤ) - 3) ((i : ℤ) + 1)
  if s.isEmpty then none
  else ((s.map (fun o => o.map (fun x => x ^ 2))).foldl oadd (some 0)).map
    (fun t => t / s.length)

/-- `get_pulse_metrics` on a timestamp Series: the returned DataFrame's three
columns (timestamps, back-filled intervals in s, back-filled variability —
the latter as the radicand of the RMS, see `msqAt`). -/
def get_pulse_metrics (ts : List ℚ) :
    List ℚ × List (Option ℚ) × List (Option ℚ) :=
  let intervals := pdiff (ts.map some)
  let ivd := pdiff intervals
  let diffs := ivd.map (omulc 1000)
  let variability := (List.range ts.length).map (msqAt diffs)
  (ts, bfill intervals, bfill variability)

/-! ## AnomalyDetector: `get_anomalies_from_rri`
(src/analysis/ecg_toolbox.py lines 299-330).

The interval Series is a `List (Option ℚ)` (entries may be NaN) together
with its index labels `indices : List ℤ`.  Note the source line
`rri.fillna(0)` computes a filled copy and discards it (the result is not
assigned and `inplace` is not set), so the series entering the baseline
subtraction is the raw `rri`, NaNs included; `fillna0` below is what that
line was evidently meant to do.  The `L = 6, tau = 4` exponential window is
forced odd to length 7 and normalized; its values being transcendental it
is the parameter `w`. -/

/-- `rri - symmetric_exponential_moving_average(rri, L=6, tau=4)`: the
detrended series (elementwise, NaN-propagating).  This is applied to the
raw `rri` — see the section comment on the discarded `fillna(0)`. -/
def rriDetrended (w : List ℚ) (rri : List (Option ℚ)) : List (Option ℚ) :=
  List.zipWith osub rri (convSameO rri w)

/-- `xs.diff().fillna(0)`: first entry and every NaN difference become 0. -/
def diffFill0 (xs : List (Option ℚ)) : List ℚ :=
  (List.range xs.length).map fun j =>
    if j = 0 then 0
    else match osub (xs.getD j none) (xs.getD (j - 1) none) with
      | some v => v
      | none => 0

/-- `xs.abs().max()` of a NaN-free series (0 for the empty series, which the
callers below never hit). -/
def maxAbs (xs : List ℚ) : ℚ := (xs.map (fun x => |x|)).foldl max 0

/-- `xs / xs.abs().max()`: when the maximum is 0 every entry is `0/0 = NaN`,
otherwise all entries are finite. -/
def normalizeByMaxAbs (xs : List ℚ) : List (Option ℚ) :=
  if maxAbs xs = 0 then xs.map (fun _ => (none : Option ℚ))
  else xs.map (fun x => some (x / maxAbs xs))

/-- The scan condition at position `i`:
`rri_f_d_n.iloc[i] <= drop_threshold and rri_f_d_n.iloc[i+1] >= rise_threshold`
(a NaN comparison is false). -/
def pacFlag (xs : List (Option ℚ)) (dropThr riseThr : ℚ) (i : ℕ) : Bool :=
  (match xs.getD i none with | some v => decide (v ≤ dropThr) | none => false)
  && (match xs.getD (i + 1) none with | some v => decide (riseThr ≤ v) | none => false)

/-- The `for i in range(len(rri_f_d_n) - 1)` loop collecting flagged
positions into `pac`. -/
def pacLoop (xs : List (Option ℚ)) (dropThr riseThr : ℚ) : List ℕ :=
  (List.range (xs.length - 1)).foldl
    (fun acc i => if pacFlag xs dropThr riseThr i then acc ++ [i] else acc) []

/-- The fully normalized difference series of the detector: detrend,
first-difference with NaN fill, divide by the maximum absolute value. -/
def normdiff (w : List ℚ) (rri : List (Option ℚ)) : List (Option ℚ) :=
  normalizeByMaxAbs (diffFill0 (rriDetrended w rri))

/-- `get_anomalies_from_rri` (thresholds are the two kwargs, defaulting to
-0.15 and 0.25): detrend by the `w`-smoothed baseline, difference,
normalize, scan, and return `rri.index.values[pac]`.  Errors: constructing
`Series(rri, index=indices)` with mismatched lengths, the numpy errors of
the smoother, and the broadcast error when the baseline length differs from
`len(rri)` (the signal is shorter than the window). -/
def get_anomalies_from_rri (w : List ℚ) (rri : List (Option ℚ)) (indices : List ℤ)
    (drop_threshold rise_threshold : ℚ) : Except String (List ℤ) :=
  if rri.length ≠ indices.length then
    .error "Length of values does not match length of index"
  else match symmetric_exponential_moving_average w rri with
    | .error e => .error e
    | .ok base =>
      if base.length ≠ rri.length then .error "operands could not be broadcast together"
      else
        let rri_f := List.zipWith osub rri base
        let rri_f_d := diffFill0 rri_f
        let rri_f_d_n := normalizeByMaxAbs rri_f_d
        .ok ((pacLoop rri_f_d_n drop_threshold rise_threshold).map (fun i => indices.getD i 0))

/-! ## HeartbeatSegmenter: `DataHandler.get_heartbeats`
(src/modules/data_handler.py lines 309-359).

The heartbeat rows of the record are abstracted to their (strictly
increasing) index list `H`, the break-marker rows to their index list `B`;
`markersPresent` is `len(included_markers) == 0` negated, i.e. whether any
segment-denominator label column is present in the dataset.
`heartbeats.loc[a:b]` (label slicing, inclusive) becomes a filter.
The Python `while segmenting:` loop is embedded with explicit fuel: the
call `segLoop H B fuel step lastBreak acc` returns `none` when the loop has
not finished within `fuel` iterations, so `(∀ fuel, ... = none)` states that
the source loop never terminates. -/

/-- One run of the `while segmenting:` loop of `get_heartbeats`, with fuel.
`step` indexes `breaks`, `lastBreak` is the Python `last_break`, `acc` the
accumulated `heartbeat_segments`. -/
def segLoop (H B : List ℕ) : ℕ → ℕ → ℕ → List (List ℕ) → Option (List (List ℕ))
  | 0, _, _, _ => none
  | fuel + 1, step, lastBreak, acc =>
    let seg := if h : step < B.length
      then H.filter (fun x => lastBreak ≤ x && x ≤ B.get ⟨step, h⟩)
      else H.filter (fun x => lastBreak ≤ x)
    if seg.isEmpty then
      segLoop H B fuel (step + 1) lastBreak acc
    else
      let acc' := acc ++ [seg]
      let lb' := seg.getLastD 0 + 1
      let rem := H.filter (fun x => lb' < x)
      if rem.isEmpty then some acc'
      else segLoop H B fuel (step + 1) (rem.headD 0) acc'

/-- `DataHandler.get_heartbeats`, abstracted to index lists.  When no
segment-denominator label is present the whole heartbeat list is returned as
one segment; otherwise the segmentation loop runs (with the given fuel). -/
def get_heartbeats (H : List ℕ) (markersPresent : Bool) (B : List ℕ) (fuel : ℕ) :
    Option (List (List ℕ)) :=
  if markersPresent then segLoop H B fuel 0 0 [] else some [H]

/-! ## PeakDetector: `get_peaks` and `peak_correction`
(src/analysis/ecg_toolbox.py lines 173-220).

`peak_correction` slices the raw Series positionally around each seed
(Python semantics, `pySlice`) and takes `idxmax()` — the original position
of the first maximum of the slice.  Seeds are `ℤ` by type, so the
`isinstance(seed, int)` ValueError branch cannot fire in the embedding.
A pandas `idxmax()` on an empty slice raises, modelled as `Except.error`
(reachable only through the `seed < window - 1` special case).

`get_peaks` computes the `quantile(y, quant)` height (numpy linear
interpolation, exact in ℚ) and runs scipy `find_peaks`: `_local_maxima_1d`
walks `i` from 1 while `i < n - 1`, and at a strict rise scans the plateau
ahead (`plateauEnd`); when the signal falls after the plateau the midpoint
`(left + right) // 2` is recorded and the walk resumes past the plateau.
The walk advances `i` by at least 1 per iteration, so fuel `len(y)`
(≥ iMax + 1) makes the embedding total and faithful. -/

/-- Position of the first maximum of a list (`Series.idxmax()` relative to
the slice start); 0 on the empty list (never used there). -/
def argmaxFst : List ℚ → ℕ
  | [] => 0
  | [_] => 0
  | a :: b :: rest =>
    if a < (b :: rest).foldl max b then argmaxFst (b :: rest) + 1 else 0

/-- `raw[a:b].idxmax()`: the original position of the first maximum of the
Python slice `raw[a:b]`, or `none` when the slice is empty (pandas raises). -/
def idxmaxFrom (raw : List ℚ) (a b : ℤ) : Option ℕ :=
  let vals := pySlice raw a b
  if vals.isEmpty then none else some (pyBound raw.length a + argmaxFst vals)

/-- The seed loop of `peak_correction`: an empty seed window is skipped,
seeds within the first `window - 1` samples search `raw[0:window-1]`, the
rest search `raw[seed-window:seed+window]`. -/
def pcLoop (raw : List ℚ) (window : ℤ) : List ℤ → List ℕ → Except String (List ℕ)
  | [], acc => .ok acc
  | seed :: rest, acc =>
    if (pySlice raw (seed - window) (seed + window)).isEmpty then
      pcLoop raw window rest acc
    else if seed < window - 1 then
      match idxmaxFrom raw 0 (window - 1) with
      | none => .error "attempt to get argmax of an empty sequence"
      | some p => pcLoop raw window rest (acc ++ [p])
    else
      match idxmaxFrom raw (seed - window) (seed + window) with
      | none => .error "attempt to get argmax of an empty sequence"
      | some p => pcLoop raw window rest (acc ++ [p])

/-- `peak_correction(seeds, raw_signal, window)`. -/
def peak_correction (seeds : List ℤ) (raw : List ℚ) (window : ℤ) :
    Except String (List ℕ) :=
  pcLoop raw window seeds []

/-- The plateau scan of scipy `_local_maxima_1d`:
`while i_ahead < i_max and x[i_ahead] == x[i]: i_ahead += 1`. -/
def plateauEnd (y : List ℚ) (iMax : ℕ) (v : ℚ) : ℕ → ℕ → ℕ
  | 0, ia => ia
  | fuel + 1, ia =>
    if ia < iMax ∧ y.getD ia 0 = v then plateauEnd y iMax v fuel (ia + 1) else ia

/-- The main walk of scipy `_local_maxima_1d` (see the section comment). -/
def lmLoop (y : List ℚ) (iMax : ℕ) : ℕ → ℕ → List ℕ
  | 0, _ => []
  | fuel + 1, i =>
    if i < iMax then
      if y.getD (i - 1) 0 < y.getD i 0 then
        if y.getD (plateauEnd y iMax (y.getD i 0) y.length (i + 1)) 0 < y.getD i 0 then
          (i + plateauEnd y iMax (y.getD i 0) y.length (i + 1) - 1) / 2
            :: lmLoop y iMax fuel (plateauEnd y iMax (y.getD i 0) y.length (i + 1) + 1)
        else lmLoop y iMax fuel (i + 1)
      else lmLoop y iMax fuel (i + 1)
    else []

/-- scipy `_local_maxima_1d(y)`: plateau midpoints of the strict local
maxima, walked left to right. -/
def local_maxima (y : List ℚ) : List ℕ :=
  lmLoop y (y.length - 1) y.length 1

/-- Insertion into a sorted list (ascending). -/
def insSortedInsert (x : ℚ) : List ℚ → List ℚ
  | [] => [x]
  | y :: rest => if x ≤ y then x :: y :: rest else y :: insSortedInsert x rest

/-- Insertion sort (ascending), used by the quantile. -/
def insSort : List ℚ → List ℚ
  | [] => []
  | x :: rest => insSortedInsert x (insSort rest)

/-- `numpy.quantile(y, q)` with the default linear interpolation:
`h = q * (n - 1)`, interpolate between the sorted values at `floor h` and
`ceil h`. -/
def quantileQ (y : List ℚ) (q : ℚ) : ℚ :=
  let s := insSort y
  let h : ℚ := q * ((y.length : ℚ) - 1)
  s.getD ⌊h⌋.toNat 0 + (h - ⌊h⌋) * (s.getD ⌈h⌉.toNat 0 - s.getD ⌊h⌋.toNat 0)

/-- `get_peaks(y, quant)` (the `'locs'` index set): scipy `find_peaks`
restricted by the quantile height bound (`height <= y[peak]`, inclusive). -/
def get_peaks (y : List ℚ) (quant : ℚ) : List ℕ :=
  (local_maxima y).filter (fun p => quantileQ y quant ≤ y.getD p 0)

/-! ## SpectralFilter: `frequency_filtering_fft`
(src/analysis/ecg_toolbox.py lines 26-76).

The signal values live in an arbitrary field `F`; the DFT root of unity
`exp(-2*pi*I/N)` is the explicit parameter `om` (for `N = 1` it is exactly
1 and for `N = 2` exactly -1, so those instantiations over ℚ reproduce the
float computation without error).  The frequency axis
`fftfreq(N) * (1 / mean(diff(t)))` is float arithmetic that can produce NaN
(mean of an empty diff) or infinities (spacing 0, and the band edges which
callers set to `np.inf`), modelled by `FloatVal` with IEEE comparison
semantics (any comparison against NaN is false).  Python exceptions are the
`FilterError` cases, raised in source order: the dimension check (only when
`t` is supplied), `np.min` on an empty axis, the reconstruction-mode check,
then the numpy TypeError from comparing against `None` when both band
edges are absent.  The final `.real` projection of the source is omitted:
over an abstract field there is no real part, and for the claims proved
here it changes nothing — in the identity claim the inverse transform IS
the (real) input, in the length claim the projection is elementwise, and
the error claims never reach it. -/

/-- A numpy float that may be NaN or infinite. -/
inductive FloatVal where
  | nan
  | pinf
  | ninf
  | fin (q : ℚ)
deriving DecidableEq

/-- `numpy.mean`: NaN on the empty array. -/
def fmean (xs : List ℚ) : FloatVal :=
  if xs.isEmpty then .nan else .fin (xs.sum / xs.length)

/-- `1 / v` in float arithmetic: `1/0 = +inf`, `1/NaN = NaN`, `1/±inf = 0`. -/
def finv : FloatVal → FloatVal
  | .nan => .nan
  | .pinf => .fin 0
  | .ninf => .fin 0
  | .fin q => if q = 0 then .pinf else .fin q⁻¹

/-- Scaling a float by a finite rational: `0 * ±inf = NaN`, `q * NaN = NaN`. -/
def fscale (q : ℚ) : FloatVal → FloatVal
  | .nan => .nan
  | .pinf => if 0 < q then .pinf else if q < 0 then .ninf else .nan
  | .ninf => if 0 < q then .ninf else if q < 0 then .pinf else .nan
  | .fin s => .fin (q * s)

/-- `numpy.abs` on a float. -/
def fabs : FloatVal → FloatVal
  | .nan => .nan
  | .pinf => .pinf
  | .ninf => .pinf
  | .fin q => .fin |q|

/-- IEEE `<` on floats: any comparison with NaN is false. -/
def fltB : FloatVal → FloatVal → Bool
  | .nan, _ => false
  | _, .nan => false
  | .pinf, _ => false
  | _, .pinf => true
  | .ninf, .ninf => false
  | .ninf, _ => true
  | .fin _, .ninf => false
  | .fin a, .fin b => decide (a < b)

/-- `numpy.fft.fftfreq(N)`: `[0, 1, ..., (N-1)//2, -(N//2), ..., -1] / N`. -/
def fftfreqQ (N : ℕ) : List ℚ :=
  (List.range N).map fun k =>
    if k ≤ (N - 1) / 2 then (k : ℚ) / N else ((k : ℚ) - N) / N

/-- The average sample spacing `mean(diff(t - min(t)))` of the de-originated
time axis, as a float. -/
def meanDiffOfT (tq : List ℚ) : FloatVal :=
  fmean (List.zipWith (fun a b => a - b)
    (tq.map (fun a => a - tq.foldl min (tq.headD 0))).tail
    (tq.map (fun a => a - tq.foldl min (tq.headD 0))))

/-- `numpy.fft.fft(y, N)` over the field `F` with root of unity `om`:
`X[k] = sum over n of y[n] * om ^ (k * n)`. -/
def fft {F : Type} [Field F] (om : F) (y : List F) : List F :=
  (List.range y.length).map fun k =>
    ∑ n ∈ Finset.range y.length, y.getD n 0 * om ^ (k * n)

/-- `numpy.fft.ifft(X)` over the field `F` with root of unity `om`:
`y[n] = (1/N) * sum over k of X[k] * om⁻¹ ^ (k * n)`. -/
def ifft {F : Type} [Field F] (om : F) (x : List F) : List F :=
  (List.range x.length).map fun n =>
    (x.length : F)⁻¹ * ∑ k ∈ Finset.range x.length, x.getD k 0 * om⁻¹ ^ (k * n)

/-- The exceptions `frequency_filtering_fft` can raise. -/
inductive FilterError where
  | dimMismatch (ny nt : ℕ)
  | emptyInput
  | bothBoundsMissing
  | badMode (mode : String)
deriving DecidableEq

/-- `X * filter_mask`: keep the bins whose mask bit is set, zero the rest. -/
def applyMask {F : Type} [Field F] (X : List F) (mask : List Bool) : List F :=
  List.zipWith (fun x b => if b then x else 0) X mask

/-- The band mask of the filter: below-upper only when `lower` is absent,
above-lower only when `upper` is absent, both-sided otherwise; with both
edges absent numpy raises comparing against `None`. -/
def bandMask (freq2 : List FloatVal) (upper lower : Option FloatVal) :
    Except FilterError (List Bool) :=
  match lower, upper with
  | none, none => .error .bothBoundsMissing
  | none, some u => .ok (freq2.map (fun f => fltB f u))
  | some l, none => .ok (freq2.map (fun f => fltB l f))
  | some l, some u => .ok (freq2.map (fun f => fltB f u && fltB l f))

/-- The body of `frequency_filtering_fft` once the time axis `tq` is fixed
(either the supplied `t` or `arange(len(y))`). -/
def ffftCore {F : Type} [Field F] (om : F) (y : List F) (tq : List ℚ)
    (upper lower : Option FloatVal) (mode : String) : Except FilterError (List F) :=
  if tq.isEmpty then .error .emptyInput
  else
    let X := fft om y
    let freq := (fftfreqQ y.length).map (fun q => fscale q (finv (meanDiffOfT tq)))
    if mode = "all" then
      match bandMask (freq.map fabs) upper lower with
      | .error e => .error e
      | .ok mask => .ok (ifft om (applyMask X mask))
    else if mode = "positive" then
      match bandMask freq upper lower with
      | .error e => .error e
      | .ok mask => .ok (ifft om (applyMask X mask))
    else .error (.badMode mode)

/-- `frequency_filtering_fft(y, t, upper, lower, reconstruction_mode)`:
when `t` is absent the axis is `arange(len(y))`; when supplied its length
must match `y`. -/
def frequency_filtering_fft {F : Type} [Field F] (om : F) (y : List F)
    (t : Option (List ℚ)) (upper lower : Option FloatVal) (mode : String) :
    Except FilterError (List F) :=
  match t with
  | none => ffftCore om y ((List.range y.length).map (fun i => (Nat.cast i : ℚ))) upper lower mode
  | some ts =>
    if ts.length ≠ y.length then .error (.dimMismatch y.length ts.length)
    else ffftCore om y ts upper lower mode

/-! ## Theorems -/

/-- Helper: with no heartbeat rows every slice of the loop is empty, so the
loop only ever takes the `continue` branch and never terminates. -/
theorem segLoop_nil_eq_none (B : List ℕ) :
    ∀ fuel step lastBreak acc, segLoop [] B fuel step lastBreak acc = none := by
  intro fuel
  induction fuel with
  | zero => intro step lastBreak acc; rfl
  | succ n ih =>
    intro step lastBreak acc
    unfold segLoop
    by_cases h : step < B.length <;> simp [h, List.filter, ih]

/-- C1: the two populated segmentation cases of the spec hold, but the third
does not: with a break-marker label present and no heartbeat rows the
`while segmenting:` loop of `get_heartbeats` never terminates (for every
fuel the embedded loop is still running), instead of returning `[]`; and
with no marker labels present it returns one (empty) segment `[[]]`, also
not `[]`. -/
theorem C1_get_heartbeats_cases :
    get_heartbeats [1, 2, 3, 10, 11, 12] true [5] 100 = some [[1, 2, 3], [10, 11, 12]]
    ∧ (∀ (H : List ℕ) (fuel : ℕ), get_heartbeats H false [] fuel = some [H])
    ∧ (∀ fuel : ℕ, get_heartbeats [] true [5] fuel = none)
    ∧ (∀ fuel : ℕ, get_heartbeats [] false [] fuel = some [[]]) := by
  refine ⟨by decide, fun H fuel => rfl, fun fuel => ?_, fun fuel => rfl⟩
  simpa [get_heartbeats] using segLoop_nil_eq_none [5] fuel 0 0 []

/-- Helper: indexing a mapped range list. -/
theorem getD_map_range {α : Type} (f : ℕ → α) (d : α) {n i : ℕ} (h : i < n) :
    ((List.range n).map f).getD i d = f i := by
  rw [List.getD_eq_getElem?_getD, List.getElem?_map, List.getElem?_range h]
  rfl

/-- Helper: indexing a list of defined values. -/
theorem getD_map_some (ts : List ℚ) {i : ℕ} (h : i < ts.length) :
    (ts.map some).getD i none = some (ts.getD i 0) := by
  have h' : ts[i]? = some ts[i] := List.getElem?_eq_getElem h
  rw [List.getD_eq_getElem?_getD, List.getElem?_map, h', List.getD_eq_getElem?_getD, h']
  rfl

/-- Helper: the first defined value after a run of NaN entries. -/
theorem firstSome_replicate_none (k : ℕ) (v : ℚ) (rest : List (Option ℚ)) :
    firstSome (List.replicate k none ++ some v :: rest) = some v := by
  induction k with
  | zero => rfl
  | succ n ih => simpa [List.replicate_succ, firstSome] using ih

/-- C2 counterexample: `get_pulse_metrics` on the spec's own example
`[0, 1, 2, 3]` returns a variability column that is entirely NaN — even
after back-fill the output table contains undefined entries, contradicting
the claim that it contains none. -/
theorem C2_counterexample :
    (get_pulse_metrics [0, 1, 2, 3]).2.2 = [none, none, none, none] ∧
    none ∈ (get_pulse_metrics [0, 1, 2, 3]).2.2 := by
  have h : (get_pulse_metrics [0, 1, 2, 3]).2.2 = [none, none, none, none] := by
    with_unfolding_all rfl
  exact ⟨h, by rw [h]; simp⟩

/-- C2 (amended): the interval column of `get_pulse_metrics` is
`intervals[i] = timestamps[i] - timestamps[i-1]` with `intervals[0]`
undefined, and `bfill` back-fills a leading run of undefined entries with
the first defined value; but on `[0, 1, 2, 3]` the result has intervals all
1 after back-fill while the variability column stays entirely undefined
(the 4-sample difference window always meets an undefined leading
difference), so the output table does contain undefined entries. -/
theorem C2_pulse_metrics_amended :
    (∀ (ts : List ℚ) (i : ℕ), 0 < i → i < ts.length →
      (pdiff (ts.map some)).getD i none = some (ts.getD i 0 - ts.getD (i - 1) 0))
    ∧ (∀ ts : List ℚ, ts ≠ [] → (pdiff (ts.map some)).getD 0 none = none)
    ∧ (∀ (k : ℕ) (v : ℚ) (rest : List (Option ℚ)),
        bfill (List.replicate k none ++ some v :: rest) =
          List.replicate k (some v) ++ some v :: bfill rest)
    ∧ get_pulse_metrics [0, 1, 2, 3] =
        ([0, 1, 2, 3], [some 1, some 1, some 1, some 1], [none, none, none, none]) := by
  refine ⟨?_, ?_, ?_, by with_unfolding_all rfl⟩
  · intro ts i hi hlen
    have hlen' : i < (ts.map some).length := by simpa using hlen
    unfold pdiff
    rw [getD_map_range _ _ hlen']
    rw [if_neg (Nat.pos_iff_ne_zero.mp hi)]
    rw [getD_map_some ts hlen, getD_map_some ts (lt_of_le_of_lt (Nat.sub_le i 1) hlen)]
    rfl
  · intro ts hne
    have h0 : 0 < (ts.map some).length := by
      simpa [List.length_pos] using hne
    unfold pdiff
    rw [getD_map_range _ _ h0]
    rfl
  · intro k v rest
    induction k with
    | zero => rfl
    | succ n ih =>
      simp only [List.replicate_succ, List.cons_append, bfill, List.append_eq, ih,
        firstSome_replicate_none]

/-- Helper: length of a numpy 'same'-mode convolution with nonempty
operands is `max n m`. -/
theorem convSameO_length (y : List (Option ℚ)) (w : List ℚ)
    (hy : 1 ≤ y.length) (hw : 1 ≤ w.length) :
    (convSameO y w).length = max y.length w.length := by
  unfold convSameO convFullO
  simp only [List.length_take, List.length_drop, List.length_map, List.length_range]
  omega

/-- C8 counterexample: with the default `L = 10` the window length is
forced to 11; on the one-sample signal `[1]` (shorter than the window
half-width) the Gaussian smoother returns 11 samples, not 1 —
`numpy.convolve(..., 'same')` returns `max(len(y), len(window))` values. -/
theorem C8_counterexample :
    forceOdd 10 = 11 ∧
    symmetric_gaussian_moving_average (List.replicate 11 ((1 : ℚ) / 11)) [some 1] =
      .ok (List.replicate 11 (some ((1 : ℚ) / 11))) ∧
    (List.replicate 11 (some ((1 : ℚ) / 11))).length ≠ [some (1 : ℚ)].length := by
  refine ⟨rfl, by with_unfolding_all rfl, by decide⟩

/-- C8 (amended): both smoothers return exactly `len(y)` samples (with the
zero-padded 'same' boundary semantics) for every signal at least as long as
the forced-odd window; a shorter nonempty signal instead yields
`max(len(y), len(window))` samples, and an empty signal is a numpy error. -/
theorem C8_smoothing_length_amended :
    (∀ (L : ℕ) (w : List ℚ) (y : List (Option ℚ)) (out : List (Option ℚ)),
      w.length = forceOdd L → w.length ≤ y.length →
      symmetric_gaussian_moving_average w y = .ok out → out.length = y.length)
    ∧ (∀ (L : ℕ) (w : List ℚ) (y : List (Option ℚ)) (out : List (Option ℚ)),
      w.length = forceOdd L → w.length ≤ y.length →
      symmetric_exponential_moving_average w y = .ok out → out.length = y.length)
    ∧ (∀ (w : List ℚ) (y : List (Option ℚ)) (out : List (Option ℚ)),
      1 ≤ y.length → 1 ≤ w.length →
      smoothSame w y = .ok out → out.length = max y.length w.length) := by
  have base : ∀ (w : List ℚ) (y : List (Option ℚ)) (out : List (Option ℚ)),
      1 ≤ y.length → 1 ≤ w.length →
      smoothSame w y = .ok out → out.length = max y.length w.length := by
    intro w y out hy hw h
    unfold smoothSame at h
    rw [if_neg (by simp only [List.isEmpty_iff]; exact List.length_pos.mp hy),
      if_neg (by simp only [List.isEmpty_iff]; exact List.length_pos.mp hw)] at h
    cases h
    exact convSameO_length y w hy hw
  have main : ∀ (L : ℕ) (w : List ℚ) (y : List (Option ℚ)) (out : List (Option ℚ)),
      w.length = forceOdd L → w.length ≤ y.length →
      smoothSame w y = .ok out → out.length = y.length := by
    intro L w y out hF hle h
    have hw : 1 ≤ w.length := by rw [forceOdd] at hF; split at hF <;> omega
    rw [base w y out (le_trans hw hle) hw h]
    exact Nat.max_eq_left hle
  exact ⟨main, main, base⟩

/-- Helper: a fold that conditionally appends is a filter. -/
theorem foldl_if_append_eq_filter (p : ℕ → Bool) :
    ∀ (l : List ℕ) (acc : List ℕ),
      l.foldl (fun acc i => if p i then acc ++ [i] else acc) acc = acc ++ l.filter p := by
  intro l
  induction l with
  | nil => intro acc; simp
  | cons a t ih =>
    intro acc
    cases h : p a <;> simp [List.foldl_cons, h, ih, List.filter_cons]

/-- Helper: the anomaly scan loop collects exactly the flagged positions of
`range (n - 1)`, in order. -/
theorem pacLoop_eq_filter (xs : List (Option ℚ)) (d r : ℚ) :
    pacLoop xs d r = (List.range (xs.length - 1)).filter (pacFlag xs d r) := by
  unfold pacLoop
  simpa using foldl_if_append_eq_filter (pacFlag xs d r) (List.range (xs.length - 1)) []

/-- C3: for every admissible window (in particular the L=6, tau=4
exponential window, whose length is forced odd to 7) and every interval
series at least as long as the window, the detector succeeds and returns
exactly the original index labels of the positions `i` (ranging over
consecutive pairs) whose normalized detrended difference is below the drop
threshold at `i` and above the rise threshold at `i + 1`. -/
theorem C3_anomaly_characterization
    (w : List ℚ) (rri : List (Option ℚ)) (indices : List ℤ) (dropThr riseThr : ℚ)
    (hw : w.length = forceOdd 6) (hle : w.length ≤ rri.length)
    (hi : indices.length = rri.length) :
    ∃ res, get_anomalies_from_rri w rri indices dropThr riseThr = .ok res ∧
      ∀ idx : ℤ, idx ∈ res ↔ ∃ i : ℕ, i + 1 < rri.length ∧
        pacFlag (normdiff w rri) dropThr riseThr i = true ∧ indices.getD i 0 = idx := by
  have hw7 : w.length = 7 := by simpa [forceOdd] using hw
  have hw1 : 1 ≤ w.length := by omega
  have hr1 : 1 ≤ rri.length := le_trans hw1 hle
  have hbase : symmetric_exponential_moving_average w rri = .ok (convSameO rri w) := by
    unfold symmetric_exponential_moving_average smoothSame
    rw [if_neg (by simp only [List.isEmpty_iff]; exact List.length_pos.mp hr1),
      if_neg (by simp only [List.isEmpty_iff]; exact List.length_pos.mp hw1)]
  have hblen : (convSameO rri w).length = rri.length := by
    rw [convSameO_length rri w hr1 hw1]
    exact Nat.max_eq_left hle
  have hxs : (normalizeByMaxAbs (diffFill0 (List.zipWith osub rri (convSameO rri w)))).length
      = rri.length := by
    unfold normalizeByMaxAbs diffFill0
    split <;> simp [hblen]
  unfold get_anomalies_from_rri
  rw [if_neg (by omega), hbase]
  simp only []
  rw [if_neg (by omega)]
  refine ⟨_, rfl, ?_⟩
  intro idx
  rw [pacLoop_eq_filter]
  simp only [List.mem_map, List.mem_filter, List.mem_range]
  constructor
  · rintro ⟨i, ⟨hi1, hi2⟩, hidx⟩
    exact ⟨i, by omega, hi2, hidx⟩
  · rintro ⟨i, h1, h2, h3⟩
    exact ⟨i, ⟨by omega, h2⟩, h3⟩

/-- C3 witness: the characterization applied to a concrete window, series
and index list. -/
theorem C3_anomaly_characterization_witness :
    ∃ res, get_anomalies_from_rri (List.replicate 7 ((1 : ℚ) / 7))
        (List.replicate 7 (some (1 : ℚ))) [0, 1, 2, 3, 4, 5, 6] (-(3 / 20)) (1 / 4) = .ok res ∧
      ∀ idx : ℤ, idx ∈ res ↔ ∃ i : ℕ, i + 1 < (List.replicate 7 (some (1 : ℚ))).length ∧
        pacFlag (normdiff (List.replicate 7 ((1 : ℚ) / 7)) (List.replicate 7 (some (1 : ℚ))))
          (-(3 / 20)) (1 / 4) i = true ∧
        ([0, 1, 2, 3, 4, 5, 6] : List ℤ).getD i 0 = idx :=
  C3_anomaly_characterization _ _ _ _ _ (by decide) (by decide) (by decide)

/-- Helper: a convolution cell over a NaN-free signal is defined, whatever
the window values. -/
theorem convCellO_ne_none (y : List (Option ℚ)) (w : List ℚ) (c : ℕ)
    (hy : ∀ x ∈ y, x ≠ none) : convCellO y w c ≠ none := by
  unfold convCellO
  suffices h : ∀ (ks : List ℕ) (acc : Option ℚ), acc ≠ none → (∀ k ∈ ks, k < y.length) →
      ks.foldl (fun acc k =>
        if k ≤ c ∧ c - k < w.length then oadd acc (omulc (w.getD (c - k) 0) (y.getD k none))
        else acc) acc ≠ none by
    exact h (List.range y.length) (some 0) (by simp)
      (fun k hk => List.mem_range.mp hk)
  intro ks
  induction ks with
  | nil => intro acc ha _; simpa using ha
  | cons k t ih =>
    intro acc ha hmem
    simp only [List.foldl_cons]
    apply ih
    · by_cases hg : k ≤ c ∧ c - k < w.length
      · rw [if_pos hg]
        obtain ⟨a, rfl⟩ := Option.ne_none_iff_exists'.mp ha
        have hk : k < y.length := hmem k (by simp)
        have hne : y.getD k none ≠ none := by
          rw [List.getD_eq_getElem?_getD, List.getElem?_eq_getElem hk]
          exact hy _ (List.getElem_mem hk)
        obtain ⟨b, hb⟩ := Option.ne_none_iff_exists'.mp hne
        rw [hb]
        simp [oadd, omulc]
      · rw [if_neg hg]; exact ha
    · intro k' hk'; exact hmem k' (by simp [hk'])

/-- Helper: every cell of a 'same'-mode convolution of a NaN-free signal is
defined. -/
theorem convSameO_ne_none (y : List (Option ℚ)) (w : List ℚ)
    (hy : ∀ x ∈ y, x ≠ none) : ∀ x ∈ convSameO y w, x ≠ none := by
  intro x hx
  have hx' : x ∈ convFullO y w :=
    List.Sublist.mem hx ((List.take_sublist _ _).trans (List.drop_sublist _ _))
  unfold convFullO at hx'
  rcases List.mem_map.mp hx' with ⟨c, _, rfl⟩
  exact convCellO_ne_none y w c hy

/-- Helper: an elementwise NaN-propagating subtraction of NaN-free series
is NaN-free. -/
theorem zipWith_osub_ne_none :
    ∀ (a b : List (Option ℚ)), (∀ u ∈ a, u ≠ none) → (∀ v ∈ b, v ≠ none) →
      ∀ x ∈ List.zipWith osub a b, x ≠ none := by
  intro a
  induction a with
  | nil => intro b _ _ x hx; simp at hx
  | cons u t ih =>
    intro b hu hv x hx
    cases b with
    | nil => simp at hx
    | cons v s =>
      simp only [List.zipWith_cons_cons, List.mem_cons] at hx
      rcases hx with rfl | hx
      · obtain ⟨a', ha⟩ := Option.ne_none_iff_exists'.mp (hu u (by simp))
        obtain ⟨b', hb⟩ := Option.ne_none_iff_exists'.mp (hv v (by simp))
        rw [ha, hb]; simp [osub]
      · exact ih s (fun z hz => hu z (by simp [hz])) (fun z hz => hv z (by simp [hz])) x hx

/-- C4: the NaN at index 1 of the interval series is NOT replaced by zero
before detrending — `rri.fillna(0)` discards its result, so the series
subtracted from is the raw one and the detrended series still has NaN at
index 1; had the claimed preprocessing happened (`fillna0`), the detrended
series would be entirely defined.  Holds for every window of the forced-odd
length 7, hence for the L=6, tau=4 exponential window of the code. -/
theorem C4_fillna_discarded (w : List ℚ) (_hw : w.length = 7) :
    (rriDetrended w
      [some 1, none, some 1, some 1, some 1, some 1, some 1, some 1, some 1, some 1]).getD 1 none
        = none
    ∧ ∀ x ∈ rriDetrended w
        (fillna0 [some 1, none, some 1, some 1, some 1, some 1, some 1, some 1, some 1, some 1]),
      x ≠ none := by
  constructor
  · unfold rriDetrended
    rw [List.getD_eq_getElem?_getD, List.getElem?_zipWith]
    have h1 : ([some 1, none, some 1, some 1, some 1, some 1, some 1, some 1, some 1, some 1] :
        List (Option ℚ))[1]? = some none := rfl
    rw [h1]
    rcases hc : (convSameO
        [some 1, none, some 1, some 1, some 1, some 1, some 1, some 1, some 1, some 1] w)[1]? with
        _ | b
    · rfl
    · cases b <;> rfl
  · intro x hx
    have hdef : ∀ u ∈ fillna0
        [some 1, none, some 1, some 1, some 1, some 1, some 1, some 1, some 1, some 1],
        u ≠ (none : Option ℚ) := by
      intro u hu
      rcases List.mem_map.mp hu with ⟨o, _, rfl⟩
      simp
    exact zipWith_osub_ne_none _ _ hdef (convSameO_ne_none _ w hdef) x hx

/-- C4 witness: the statement at a concrete length-7 window. -/
theorem C4_fillna_discarded_witness :
    (List.replicate 7 (1 : ℚ)).length = 7 ∧
    ((rriDetrended (List.replicate 7 (1 : ℚ))
      [some 1, none, some 1, some 1, some 1, some 1, some 1, some 1, some 1, some 1]).getD 1 none
        = none
    ∧ ∀ x ∈ rriDetrended (List.replicate 7 (1 : ℚ))
        (fillna0 [some 1, none, some 1, some 1, some 1, some 1, some 1, some 1, some 1, some 1]),
      x ≠ none) :=
  ⟨by decide, C4_fillna_discarded (List.replicate 7 (1 : ℚ)) (by decide)⟩


/-- Helper: a Python slice with equal endpoints is empty. -/
theorem pySlice_self {α : Type} (l : List α) (a : ℤ) : pySlice l a a = [] := by
  unfold pySlice
  simp [Nat.sub_self]

/-- Helper: with `window = 0` every seed slice `raw[seed:seed]` is empty,
so the loop skips every seed and the accumulator passes through. -/
theorem pcLoop_window_zero (raw : List ℚ) :
    ∀ (seeds : List ℤ) (acc : List ℕ), pcLoop raw 0 seeds acc = .ok acc := by
  intro seeds
  induction seeds with
  | nil => intro acc; rfl
  | cons s rest ih =>
    intro acc
    rw [pcLoop]
    have hempty : (pySlice raw (s - 0) (s + 0)).isEmpty = true := by
      rw [sub_zero, add_zero, pySlice_self]
      rfl
    rw [if_pos hempty]
    exact ih acc

/-- C9 counterexample: the seed 1 is an exact index of a value
equal-or-greater than its neighbours in `[0, 5, 0]`, yet
`peak_correction([1], [0,5,0], window=0)` returns `[]`, not `[1]` — the
empty window `raw[1:1]` makes every seed be silently skipped. -/
theorem C9_counterexample :
    peak_correction [1] [0, 5, 0] 0 = .ok [] ∧ ([] : List ℕ) ≠ [1] ∧
    ([0, 5, 0] : List ℚ).getD 0 0 ≤ ([0, 5, 0] : List ℚ).getD 1 0 ∧
    ([0, 5, 0] : List ℚ).getD 2 0 ≤ ([0, 5, 0] : List ℚ).getD 1 0 :=
  ⟨by with_unfolding_all rfl, by decide,
    of_decide_eq_true (by with_unfolding_all rfl),
    of_decide_eq_true (by with_unfolding_all rfl)⟩

/-- C9 (amended): `peak_correction` with `window = 0` returns the empty
list for every seed list and every raw signal: each seed's search slice
`raw[seed-0:seed+0]` is empty, and seeds with an empty window are silently
dropped (the behaviour §4.3 of the spec itself documents), so no seed
survives — the seed list is not returned unchanged. -/
theorem C9_window_zero_amended :
    ∀ (seeds : List ℤ) (raw : List ℚ), peak_correction seeds raw 0 = .ok [] :=
  fun seeds raw => pcLoop_window_zero raw seeds []

/-- Helper: the first-maximum position lies inside a nonempty list. -/
theorem argmaxFst_lt : ∀ l : List ℚ, l ≠ [] → argmaxFst l < l.length := by
  intro l
  induction l with
  | nil => intro h; exact absurd rfl h
  | cons a t ih =>
    intro _
    cases t with
    | nil => simp [argmaxFst]
    | cons b r =>
      rw [argmaxFst]
      split
      · have := ih (by simp)
        simp only [List.length_cons] at *
        omega
      · simp

/-- Helper: `idxmax` of a slice is an index into the original signal. -/
theorem idxmaxFrom_lt (raw : List ℚ) (a b : ℤ) (p : ℕ)
    (h : idxmaxFrom raw a b = some p) : p < raw.length := by
  simp only [idxmaxFrom] at h
  split at h
  · exact absurd h (by simp)
  · rename_i hne
    injection h with h'
    subst h'
    have h1 : argmaxFst (pySlice raw a b) < (pySlice raw a b).length :=
      argmaxFst_lt _ (by simpa [List.isEmpty_iff] using hne)
    have h2 : (pySlice raw a b).length ≤ raw.length - pyBound raw.length a := by
      unfold pySlice
      simp only [List.length_take, List.length_drop]
      omega
    omega

/-- Helper: every position accumulated by the seed loop is an index into
the raw signal. -/
theorem pcLoop_ok_lt (raw : List ℚ) (window : ℤ) :
    ∀ (seeds : List ℤ) (acc out : List ℕ), (∀ p ∈ acc, p < raw.length) →
      pcLoop raw window seeds acc = .ok out → ∀ p ∈ out, p < raw.length := by
  intro seeds
  induction seeds with
  | nil =>
    intro acc out hacc h
    injection h with h'
    subst h'
    exact hacc
  | cons s rest ih =>
    intro acc out hacc h
    rw [pcLoop] at h
    split at h
    · exact ih acc out hacc h
    · split at h
      · cases hidx : idxmaxFrom raw 0 (window - 1) with
        | none => rw [hidx] at h; cases h
        | some p' =>
          rw [hidx] at h
          refine ih _ _ ?_ h
          intro p hp
          rcases List.mem_append.mp hp with hp' | hp'
          · exact hacc p hp'
          · have : p = p' := by simpa using hp'
            subst this
            exact idxmaxFrom_lt raw 0 (window - 1) p hidx
      · cases hidx : idxmaxFrom raw (s - window) (s + window) with
        | none => rw [hidx] at h; cases h
        | some p' =>
          rw [hidx] at h
          refine ih _ _ ?_ h
          intro p hp
          rcases List.mem_append.mp hp with hp' | hp'
          · exact hacc p hp'
          · have : p = p' := by simpa using hp'
            subst this
            exact idxmaxFrom_lt raw (s - window) (s + window) p hidx

/-- Helper: the plateau scan never moves backwards. -/
theorem plateauEnd_ge (y : List ℚ) (iMax : ℕ) (v : ℚ) :
    ∀ fuel ia, ia ≤ plateauEnd y iMax v fuel ia := by
  intro fuel
  induction fuel with
  | zero => intro ia; exact le_refl ia
  | succ n ih =>
    intro ia
    rw [plateauEnd]
    split
    · exact le_trans (by omega) (ih (ia + 1))
    · exact le_refl ia

/-- Helper: the plateau scan never passes `iMax`. -/
theorem plateauEnd_le (y : List ℚ) (iMax : ℕ) (v : ℚ) :
    ∀ fuel ia, ia ≤ iMax → plateauEnd y iMax v fuel ia ≤ iMax := by
  intro fuel
  induction fuel with
  | zero => intro ia h; exact h
  | succ n ih =>
    intro ia h
    rw [plateauEnd]
    split
    · rename_i hcond
      exact ih (ia + 1) (by omega)
    · exact h

/-- Helper: the scipy local-maxima walk yields strictly increasing plateau
midpoints, all in `[i, iMax)`. -/
theorem lmLoop_spec (y : List ℚ) (iMax : ℕ) :
    ∀ fuel i, (∀ p ∈ lmLoop y iMax fuel i, i ≤ p ∧ p < iMax) ∧
      List.Pairwise (fun a b => a < b) (lmLoop y iMax fuel i) := by
  intro fuel
  induction fuel with
  | zero => intro i; exact ⟨by simp [lmLoop], by simp [lmLoop]⟩
  | succ n ih =>
    intro i
    rw [lmLoop]
    by_cases h1 : i < iMax
    · rw [if_pos h1]
      by_cases h2 : y.getD (i - 1) 0 < y.getD i 0
      · rw [if_pos h2]
        have hge : i + 1 ≤ plateauEnd y iMax (y.getD i 0) y.length (i + 1) :=
          plateauEnd_ge y iMax _ y.length (i + 1)
        have hle2 : plateauEnd y iMax (y.getD i 0) y.length (i + 1) ≤ iMax :=
          plateauEnd_le y iMax _ y.length (i + 1) (by omega)
        by_cases h3 : y.getD (plateauEnd y iMax (y.getD i 0) y.length (i + 1)) 0 < y.getD i 0
        · rw [if_pos h3]
          obtain ⟨ihm, ihp⟩ := ih (plateauEnd y iMax (y.getD i 0) y.length (i + 1) + 1)
          refine ⟨?_, ?_⟩
          · intro p hp
            rcases List.mem_cons.mp hp with rfl | hp'
            · omega
            · have := ihm p hp'
              omega
          · exact List.pairwise_cons.mpr ⟨fun p hp => by have := ihm p hp; omega, ihp⟩
        · rw [if_neg h3]
          obtain ⟨ihm, ihp⟩ := ih (i + 1)
          exact ⟨fun p hp => by have := ihm p hp; omega, ihp⟩
      · rw [if_neg h2]
        obtain ⟨ihm, ihp⟩ := ih (i + 1)
        exact ⟨fun p hp => by have := ihm p hp; omega, ihp⟩
    · rw [if_neg h1]
      exact ⟨by simp, by simp⟩

/-- C10 counterexample: two seeds with overlapping windows both refine to
the same maximum: `peak_correction([3, 4], [0,0,0,9,0,...], window=2)`
returns `[3, 3]`, which is not strictly increasing — the PeakSet invariant
fails for `peak_correction`. -/
theorem C10_counterexample :
    peak_correction [3, 4] [0, 0, 0, 9, 0, 0, 0, 0, 0, 0] 2 = .ok [3, 3] ∧
    ¬ List.Pairwise (fun a b => a < b) ([3, 3] : List ℕ) :=
  ⟨by with_unfolding_all rfl, by decide⟩

/-- C10 (amended): the index set returned by `get_peaks` is a valid
PeakSet — strictly increasing with every index in `[0, N)` — for every
signal and quantile; but `peak_correction` only guarantees that every
returned index lies in `[0, N)`: overlapping seed windows can repeat (or
disorder) indices, so its output need not be strictly increasing. -/
theorem C10_peakset_amended :
    (∀ (y : List ℚ) (quant : ℚ), List.Pairwise (fun a b => a < b) (get_peaks y quant) ∧
      ∀ p ∈ get_peaks y quant, p < y.length)
    ∧ (∀ (seeds : List ℤ) (raw : List ℚ) (window : ℤ) (out : List ℕ),
      peak_correction seeds raw window = .ok out → ∀ p ∈ out, p < raw.length) := by
  constructor
  · intro y quant
    obtain ⟨hm, hp⟩ := lmLoop_spec y (y.length - 1) y.length 1
    constructor
    · exact List.Pairwise.sublist (List.filter_sublist _) hp
    · intro p hp'
      have hmem := (List.mem_filter.mp hp').1
      have := hm p hmem
      omega
  · intro seeds raw window out h
    exact pcLoop_ok_lt raw window seeds [] out (by simp) h

/-- Helper: the geometric sum of a nontrivial root of unity vanishes. -/
theorem geom_sum_root_eq_zero {F : Type} [Field F] (z : F) (N : ℕ)
    (hz : z ≠ 1) (hzN : z ^ N = 1) : ∑ k ∈ Finset.range N, z ^ k = 0 := by
  rw [geom_sum_eq hz N, hzN]
  simp

/-- Helper: rearranging DFT twiddle powers into a geometric-series base. -/
theorem pow_combine {F : Type} [Field F] (om : F) (k m n : ℕ) :
    om ^ (k * m) * om⁻¹ ^ (k * n) = (om ^ m * om⁻¹ ^ n) ^ k := by
  rw [mul_pow, mul_comm k m, pow_mul, mul_comm k n, pow_mul]

/-- Helper: the inverse DFT inverts the DFT when `om` is a primitive root
of unity of order the signal length and that length is invertible in `F`. -/
theorem ifft_fft {F : Type} [Field F] (om : F) (y : List F)
    (h1 : om ^ y.length = 1)
    (h2 : ∀ k : ℕ, 0 < k → k < y.length → om ^ k ≠ 1)
    (h3 : (y.length : F) ≠ 0) :
    ifft om (fft om y) = y := by
  have hN0 : y.length ≠ 0 := fun h => h3 (by rw [h, Nat.cast_zero])
  have hom : om ≠ 0 := by
    intro h0
    rw [h0, zero_pow hN0] at h1
    exact zero_ne_one h1
  have hflen : (fft om y).length = y.length := by simp [fft]
  have hpow_eq : ∀ b n : ℕ, b < y.length → n < y.length → b ≠ n →
      om ^ b * (om⁻¹) ^ n ≠ 1 := by
    intro b n hb hn hbn hz1
    have hpon : om ^ n ≠ 0 := pow_ne_zero n hom
    have heq : om ^ b = om ^ n := by
      rw [inv_pow, ← div_eq_mul_inv] at hz1
      exact (div_eq_one_iff_eq hpon).mp hz1
    rcases Nat.lt_or_ge b n with hlt | hge
    · have hsplit : om ^ n = om ^ (n - b) * om ^ b := by
        rw [← pow_add]
        congr 1
        omega
      have hcan : om ^ (n - b) * om ^ b = (1 : F) * om ^ b := by
        rw [one_mul, ← hsplit, heq]
      exact h2 (n - b) (by omega) (by omega)
        (mul_right_cancel₀ (pow_ne_zero b hom) hcan)
    · have hlt' : n < b := by omega
      have hsplit : om ^ b = om ^ (b - n) * om ^ n := by
        rw [← pow_add]
        congr 1
        omega
      have hcan : om ^ (b - n) * om ^ n = (1 : F) * om ^ n := by
        rw [one_mul, ← hsplit, ← heq]
      exact h2 (b - n) (by omega) (by omega)
        (mul_right_cancel₀ (pow_ne_zero n hom) hcan)
  have hzN : ∀ b n : ℕ, (om ^ b * (om⁻¹) ^ n) ^ y.length = 1 := by
    intro b n
    rw [mul_pow, ← pow_mul om b y.length, mul_comm b y.length, pow_mul, h1, one_pow,
      ← pow_mul om⁻¹ n y.length, mul_comm n y.length, pow_mul, inv_pow, h1, inv_one, one_pow,
      one_mul]
  apply List.ext_getElem (by simp [ifft, hflen])
  intro n hn hn'
  simp only [ifft, hflen, List.getElem_map, List.getElem_range]
  have hgetD : ∀ k : ℕ, k < y.length →
      (fft om y).getD k 0 = ∑ m ∈ Finset.range y.length, y.getD m 0 * om ^ (k * m) := by
    intro k hk
    exact getD_map_range _ _ hk
  rw [Finset.sum_congr rfl (fun k hk => by
    rw [hgetD k (List.mem_range.mp hk), Finset.sum_mul])]
  rw [Finset.sum_congr rfl (fun k hk => Finset.sum_congr rfl (fun m hm => by
    rw [mul_assoc, pow_combine]))]
  rw [Finset.sum_comm]
  rw [Finset.sum_congr rfl (fun m hm => by rw [← Finset.mul_sum])]
  rw [Finset.sum_eq_single n
    (fun m hm hmn => by
      rw [geom_sum_root_eq_zero _ _
        (hpow_eq m n (List.mem_range.mp hm) hn' hmn) (hzN m n), mul_zero])
    (fun hnot => absurd (Finset.mem_range.mpr hn') hnot)]
  rw [← mul_pow, mul_inv_cancel₀ hom, one_pow]
  simp only [one_pow, Finset.sum_const, Finset.card_range, nsmul_eq_mul, mul_one]
  rw [mul_comm (y.getD n 0), ← mul_assoc, inv_mul_cancel₀ h3, one_mul]
  rw [List.getD_eq_getElem?_getD, List.getElem?_eq_getElem hn', Option.getD_some]

/-- Helper: a mask of bins compared below `+inf` is all-true as soon as the
frequencies are finite. -/
theorem applyMask_all_true {F : Type} [Field F] :
    ∀ (X : List F) (mask : List Bool), X.length ≤ mask.length → (∀ b ∈ mask, b = true) →
      applyMask X mask = X := by
  intro X
  induction X with
  | nil => intro mask _ _; rfl
  | cons x xs ih =>
    intro mask hlen hall
    cases mask with
    | nil => simp at hlen
    | cons b bs =>
      have hb : b = true := hall b (by simp)
      subst hb
      simp only [applyMask, List.zipWith_cons_cons, if_true]
      congr 1
      exact ih bs (by simpa using hlen) (fun b' hb' => hall b' (by simp [hb']))

/-- C5 counterexample: on the valid one-sample pair `y = [7], t = [0]`
(lengths match, the axis is trivially monotonic) the all-pass filter
returns `[0]`, not `[7]`: `mean(diff(t))` is the mean of an empty array
(NaN), so the single frequency bin is NaN, `NaN < inf` is false and the
mask zeroes the only bin.  For `N = 1` the DFT root `exp(-2*pi*I/1) = 1`
exactly, so this rational computation reproduces the float run verbatim. -/
theorem C5_counterexample :
    frequency_filtering_fft (1 : ℚ) [7] (some [0]) (some .pinf) none "all" = .ok [0] ∧
    ([0] : List ℚ) ≠ [7] :=
  ⟨by with_unfolding_all rfl, of_decide_eq_true (by with_unfolding_all rfl)⟩

/-- C5 (amended): the transform-domain filter with `lower` absent and
`upper = +inf` reproduces the input exactly (over exact arithmetic) for
every valid `(y, t)` pair whose de-originated time axis has a finite,
nonzero average spacing — equivalently at least two samples and
`t[-1] != t[0]` — when `om` is a primitive `len(y)`-th root of unity (as
`exp(-2*pi*I/N)` is over ℂ); for a one-sample pair the frequency is NaN
and the output is `[0]` instead (see the counterexample). -/
theorem C5_fft_identity_amended {F : Type} [Field F] (om : F) (y : List F)
    (ts : List ℚ) (d : ℚ)
    (hlen : ts.length = y.length)
    (hmd : meanDiffOfT ts = .fin d) (hd : d ≠ 0)
    (h1 : om ^ y.length = 1)
    (h2 : ∀ k : ℕ, 0 < k → k < y.length → om ^ k ≠ 1)
    (h3 : (y.length : F) ≠ 0) :
    frequency_filtering_fft om y (some ts) (some .pinf) none "all" = .ok y := by
  have hN0 : y.length ≠ 0 := fun h => h3 (by rw [h, Nat.cast_zero])
  have hts : ¬ ts.isEmpty = true := by
    simp only [List.isEmpty_iff]
    intro h
    apply hN0
    rw [← hlen, h]
    rfl
  simp only [frequency_filtering_fft]
  rw [if_neg (by omega)]
  simp only [ffftCore]
  rw [if_neg hts, if_pos trivial]
  simp only [bandMask, hmd]
  have hall : ∀ b ∈ (((fftfreqQ y.length).map
        (fun q => fscale q (finv (FloatVal.fin d)))).map fabs).map
        (fun f => fltB f FloatVal.pinf), b = true := by
    intro b hb
    obtain ⟨f, hf, rfl⟩ := List.mem_map.mp hb
    obtain ⟨g, hg, rfl⟩ := List.mem_map.mp hf
    obtain ⟨q, hq, rfl⟩ := List.mem_map.mp hg
    show fltB (fabs (fscale q (finv (FloatVal.fin d)))) FloatVal.pinf = true
    simp only [finv]
    rw [if_neg hd]
    rfl
  rw [applyMask_all_true (fft om y)
    ((((fftfreqQ y.length).map (fun q => fscale q (finv (FloatVal.fin d)))).map fabs).map
      (fun f => fltB f FloatVal.pinf))
    (by simp [fft, fftfreqQ]) hall]
  rw [ifft_fft om y h1 h2 h3]

/-- C5 witness: for `N = 2` the DFT root `exp(-2*pi*I/2) = -1` exactly, so
the identity is checked verbatim over ℚ on `y = [1, 2], t = [0, 1]`. -/
theorem C5_fft_identity_amended_witness :
    frequency_filtering_fft (-1 : ℚ) [1, 2] (some [0, 1]) (some .pinf) none "all" =
      .ok [1, 2] :=
  C5_fft_identity_amended (-1 : ℚ) [1, 2] [0, 1] 1 rfl
    (by with_unfolding_all rfl) (by norm_num)
    (by norm_num)
    (fun k hk1 hk2 => by
      simp only [List.length_cons, List.length_nil] at hk2
      have hk : k = 1 := by omega
      subst hk
      norm_num)
    (by norm_num)

/-- Helper: a successfully built band mask has one bit per frequency bin. -/
theorem bandMask_ok_length (freq2 : List FloatVal) (upper lower : Option FloatVal)
    (mask : List Bool) (h : bandMask freq2 upper lower = .ok mask) :
    mask.length = freq2.length := by
  cases lower with
  | none =>
    cases upper with
    | none => cases h
    | some u => injection h with h'; rw [← h']; simp
  | some l =>
    cases upper with
    | none => injection h with h'; rw [← h']; simp
    | some u => injection h with h'; rw [← h']; simp

/-- Helper: every successful run of the filter body returns `len(y)`
samples. -/
theorem ffftCore_ok_length {F : Type} [Field F] (om : F) (y : List F) (tq : List ℚ)
    (upper lower : Option FloatVal) (mode : String) (out : List F)
    (h : ffftCore om y tq upper lower mode = .ok out) : out.length = y.length := by
  simp only [ffftCore] at h
  split at h
  · cases h
  · split at h
    · split at h
      · cases h
      · rename_i mask hmask
        injection h with h'
        rw [← h']
        have hm := bandMask_ok_length _ _ _ _ hmask
        simp only [List.length_map, fftfreqQ, List.length_range] at hm
        simp [ifft, applyMask, fft, hm]
    · split at h
      · split at h
        · cases h
        · rename_i mask hmask
          injection h with h'
          rw [← h']
          have hm := bandMask_ok_length _ _ _ _ hmask
          simp only [List.length_map, fftfreqQ, List.length_range] at hm
          simp [ifft, applyMask, fft, hm]
      · cases h

/-- C6: whenever `frequency_filtering_fft` returns (any time axis, band and
reconstruction mode that does not raise), the output has exactly `len(y)`
samples. -/
theorem C6_fft_length {F : Type} [Field F] (om : F) (y : List F) (t : Option (List ℚ))
    (upper lower : Option FloatVal) (mode : String) (out : List F)
    (h : frequency_filtering_fft om y t upper lower mode = .ok out) :
    out.length = y.length := by
  cases t with
  | none =>
    simp only [frequency_filtering_fft] at h
    exact ffftCore_ok_length _ _ _ _ _ _ _ h
  | some ts =>
    simp only [frequency_filtering_fft] at h
    split at h
    · cases h
    · exact ffftCore_ok_length _ _ _ _ _ _ _ h

/-- C6 witness: a concrete run (band `(-inf, 1)` read as upper bound 1,
mode `'all'`, implicit axis) returns as many samples as it was given. -/
theorem C6_fft_length_witness : ([3, 3] : List ℚ).length = ([1, 2] : List ℚ).length :=
  C6_fft_length (1 : ℚ) [1, 2] none (some (.fin 1)) none "all" [3, 3]
    (by with_unfolding_all rfl)

/-- C7: the two raising paths of `frequency_filtering_fft`: a supplied time
axis of the wrong length raises the dimension-mismatch input-shape error
(carrying both lengths), and an unrecognized reconstruction mode raises the
configuration error (carrying the mode) on every input that reaches the
mode check (nonempty signal, well-sized axis); in both cases the error
propagates and no filtered signal is returned. -/
theorem C7_fft_error_cases :
    (∀ (F : Type) [Field F] (om : F) (y : List F) (ts : List ℚ)
      (upper lower : Option FloatVal) (mode : String), ts.length ≠ y.length →
        frequency_filtering_fft om y (some ts) upper lower mode =
          .error (.dimMismatch y.length ts.length))
    ∧ (∀ (F : Type) [Field F] (om : F) (y : List F) (t : Option (List ℚ))
      (upper lower : Option FloatVal) (mode : String),
        mode ≠ "all" → mode ≠ "positive" → y ≠ [] →
        (∀ ts, t = some ts → ts.length = y.length) →
        frequency_filtering_fft om y t upper lower mode = .error (.badMode mode)) := by
  constructor
  · intro F _ om y ts upper lower mode hne
    simp only [frequency_filtering_fft]
    rw [if_pos hne]
  · intro F _ om y t upper lower mode hall hpos hy hts
    have hylen : y.length ≠ 0 := by
      simpa [List.length_eq_zero] using hy
    have core : ∀ tq : List ℚ, tq.length = y.length →
        ffftCore om y tq upper lower mode = .error (.badMode mode) := by
      intro tq hq
      simp only [ffftCore]
      rw [if_neg (by simp only [List.isEmpty_iff]; intro h; apply hylen; rw [← hq, h]; rfl)]
      rw [if_neg hall, if_neg hpos]
    cases t with
    | none =>
      simp only [frequency_filtering_fft]
      exact core _ (by simp)
    | some ts =>
      have hlen := hts ts rfl
      simp only [frequency_filtering_fft]
      rw [if_neg (by omega)]
      exact core ts hlen
